import Mathlib

/-!
Verification of the denden message hub core (`src/core.ts`, `src/tools.ts`).

The development shallowly embeds the TypeScript source: pure helpers become
Lean functions over `String`/`List`; the stateful `Hub` class becomes explicit
state passing over a `HubState` record.  JavaScript strings are modelled by
Lean `String` (identical for the code-point ranges exercised here); JS stable
`Array.prototype.sort` is modelled by a stable insertion sort; JS object
identity (the per-publish payload wrapper used as a `WeakMap` key) is modelled
by a freshly allocated numeric token.
-/

namespace DenDen

/-! ## JavaScript string primitives

Lean core's `String.startsWith`/`endsWith`/`contains` are byte-based and do
not reduce in the kernel, so we model the JS string operations directly over
the character list. -/

/-- Whether `pre` is a prefix of `l` (character lists). -/
def listPrefix : List Char → List Char → Bool
  | [], _ => true
  | _ :: _, [] => false
  | a :: as, b :: bs => a = b && listPrefix as bs

/-- JS `haystack.startsWith(needle)`. -/
def jsStartsWith (s t : String) : Bool := listPrefix t.data s.data

/-- JS `haystack.endsWith(needle)`. -/
def jsEndsWith (s t : String) : Bool := listPrefix t.data.reverse s.data.reverse

/-- JS `str.includes(c)` for a single-character needle. -/
def jsIncludesChar (s : String) (c : Char) : Bool := s.data.any (fun x => x = c)

/-- JS `str.substring(0, str.length - n)`. -/
def jsDropRight (s : String) (n : Nat) : String := String.mk (s.data.take (s.data.length - n))

/-! ## `tools.ts` -/

/-- Model of `reverseString` (tools.ts): `str.split('').reverse().join('')`. -/
def reverseString (s : String) : String := String.mk s.data.reverse

/-- The record returned by `getAffix` on success. -/
structure Affix where
  term : String
  isSuffix : Bool
deriving Repr, DecidableEq

/-- Model of `getAffix` (tools.ts).  Returns `none` where the JS returns `false`. -/
def getAffix (str : String) : Option Affix :=
  if ¬ jsIncludesChar str '*' ∨ str = "*" then none
  else
    let rev := jsStartsWith str "*"
    let str1 := if rev then reverseString str else str
    if ¬ jsEndsWith str1 "*" ∨ (jsEndsWith str1 "*" ∧ jsStartsWith str1 "*") then none
    else
      let core := jsDropRight str1 1
      some { term := if rev then reverseString core else core, isSuffix := rev }

/-- A single channel route: a JS string or a RegExp (modelled by its
`test` predicate — the embedding treats a regular expression as the
set of strings it accepts). -/
inductive Route where
  | str (s : String)
  | regex (test : String → Bool)

/-- A `MatchNeedle` (tools.ts): a route or an array of routes. -/
inductive MatchNeedle where
  | one (r : Route)
  | many (rs : List Route)

/-- Model of `match` (tools.ts) on a non-array needle.  The `'*' === needle` check
only ever fires for the string `'*'`.

When the needle contains a `*` but `getAffix` returns `false` (infix or
multi-`*` patterns), the JS code casts the `false` away: `partial.isSuffix`
evaluates to `undefined` (falsy) and `partial.term` to `undefined`, which
`String.prototype.startsWith` coerces to the string `"undefined"`.  The
`none` branch below models that behaviour exactly. -/
def matchRoute (r : Route) (haystack : String) : Bool :=
  match r with
  | .regex test => test haystack
  | .str needle =>
    if needle = "*" then true
    else if ¬ jsIncludesChar needle '*' then needle = haystack
    else
      match getAffix needle with
      | some affix =>
          if affix.isSuffix then jsEndsWith haystack affix.term
          else jsStartsWith haystack affix.term
      | none => jsStartsWith haystack "undefined"

/-- Model of `match` (tools.ts): array needles succeed when any element matches. -/
def match' (needle : MatchNeedle) (haystack : String) : Bool :=
  match needle with
  | .one r => matchRoute r haystack
  | .many rs => rs.any (fun r => matchRoute r haystack)

/-! Sanity checks mirroring `tests/tools.test.ts`. -/

example : match' (.one (.str "sandwich")) "sandwich" = true := by decide
example : match' (.one (.str "sand*")) "sandwich" = true := by decide
example : match' (.one (.str "sand")) "sandwich" = false := by decide
example : match' (.one (.str "*wich")) "sandwich" = true := by decide
example : match' (.one (.str "*dw*")) "sandwich" = false := by decide
example : match' (.one (.str "*")) "sandwich" = true := by decide
example : match' (.many [.str "sand*", .str "*wich"]) "sandwich" = true := by decide
example : getAffix "sand*" = some ⟨"sand", false⟩ := by decide
example : getAffix "*wich" = some ⟨"wich", true⟩ := by decide
example : getAffix "*dw*" = none := by decide
example : getAffix "*" = none := by decide

/-! ## Sorting (`sortByProp`, tools.ts)

JS `Array.prototype.sort` is stable; the numeric comparators used by
`sortByProp` induce the total preorders below, so any stable sort computes
the same list.  We use `List.insertionSort`, which is stable and reduces in
the kernel. -/

inductive SortOrder where
  | ASC
  | DESC
deriving Repr, DecidableEq

/-- The "a stays before b" relation induced by the `sortByProp` comparator
(`ap - bp` for ASC, `bp - ap` for DESC) on (possibly non-numeric) keys.
After the non-numeric filter both keys are always `some`. -/
def keyLeV (order : SortOrder) : Option Int → Option Int → Bool
  | some ap, some bp =>
    match order with
    | .ASC => ap ≤ bp
    | .DESC => bp ≤ ap
  | _, _ => true

/-- Model of `sortByProp` (tools.ts): discard entries whose key is non-numeric
(`typeof r[prop] !== 'number'`), then stably sort by the comparator. -/
def sortByProp {O : Type} (arr : List O) (prop : O → Option Int) (order : SortOrder) : List O :=
  (arr.filter (fun r => (prop r).isSome)).insertionSort
    (fun a b => keyLeV order (prop a) (prop b) = true)

/-! ## `core.ts` data model

Payloads, callback return values and thrown values live in a small universe
of JS values.  `Message.contains` — the per-publish wrapper object `{payload}`
used for identity — is modelled by a numeric token (`containsId`) allocated
freshly for each `pub` call, mirroring JS object identity. -/

inductive JsVal where
  | undef
  | boolean (b : Bool)
  | num (n : Int)
  | str (s : String)
deriving Repr, DecidableEq

/-- A value thrown by a subscriber callback; `isError` records whether it is
an `Error` instance (`e instanceof Error`). -/
structure ThrownVal where
  val : JsVal
  isError : Bool
deriving Repr, DecidableEq

/-- An entry of the Completion Tracker / publish result list: either a plain
callback return value or a `CallbackError` wrapping the thrown value as its
`cause`. -/
inductive CbResult where
  | val (v : JsVal)
  | cbError (cause : ThrownVal)
deriving Repr, DecidableEq

/-- The `Error` object carried by an `ErrorEvent`: a `CallbackError`, possibly
wrapped once more in the generic `Error('Caught a non-Error error')`. -/
inductive ErrVal where
  | callbackError (cause : ThrownVal)
  | wrapError (cause : ErrVal)
deriving Repr, DecidableEq

/-- Predicate `ErrVal.reaches e t`: the cause chain of `e` reaches the thrown value `t`. -/
def ErrVal.reaches : ErrVal → ThrownVal → Bool
  | .callbackError t, t' => t = t'
  | .wrapError e, t' => e.reaches t'

/-- Model of `Message` (core.ts): `order` is the global monotone sequence number,
`containsId` the identity of the `contains` payload wrapper. -/
structure Message where
  channel : String
  containsId : Nat
  payload : JsVal
  order : Nat
deriving Repr, DecidableEq

/-- What one invocation of a subscriber callback does: either return a value
or throw, and possibly invoke the `unsub` handle it receives. -/
inductive CbOutcome where
  | ret (v : JsVal)
  | throwV (t : ThrownVal)

structure CbAct where
  outcome : CbOutcome
  unsub : Bool

/-- A subscriber callback, modelled as a pure decision function on
`(payload, message)`.  (Reentrant hub calls from inside callbacks are outside
this embedding.) -/
def Callback : Type := JsVal → Message → CbAct

/-- A live subscription: the listener registered by `sub` together with its
`AbortController` state. -/
structure Sub where
  route : MatchNeedle
  cb : Callback
  aborted : Bool

/-- The `Hub`'s state.  `channels` is the insertion-ordered name → log map;
`running` the Completion Tracker (`WeakMap`, keyed by `containsId`);
`errorEvents` the sequence of `ErrorEvent`s dispatched on the hub;
`nextOrder` the static `Message.#order` counter; `nextContainsId` the
allocator for payload-wrapper identities. -/
structure HubState where
  channels : List (String × List Message)
  subs : List Sub
  running : Nat → Option (List CbResult)
  errorEvents : List ErrVal
  nextOrder : Nat
  nextContainsId : Nat

def emptyHub : HubState :=
  { channels := [], subs := [], running := fun _ => none, errorEvents := [],
    nextOrder := 0, nextContainsId := 0 }

/-! ## Hub operations -/

/-- Model of `Hub.addToRunning`: append `status` to the tracker entry for the message's
payload wrapper, creating the entry if absent. -/
def addToRunning (st : HubState) (cid : Nat) (status : CbResult) : HubState :=
  let current := (st.running cid).getD []
  { st with running := fun k => if k = cid then some (current ++ [status]) else st.running k }

/-- The `ErrorEvent` payload built by `handleCallback` for a thrown value:
an `Error` is reported as the `CallbackError` itself, a non-`Error` is first
wrapped in `new Error('Caught a non-Error error', {cause})`. -/
def errorEventFor (t : ThrownVal) : ErrVal :=
  if t.isError then .callbackError t else .wrapError (.callbackError t)

/-- Model of `Hub.handleCallback`: run the callback; a thrown value becomes a
`CallbackError` result plus one `ErrorEvent`; `undefined` results are recorded
as `true`; the callback may abort its own subscription via the `unsub` handle
it is passed.  Returns the updated hub fields and the updated subscription. -/
def handleCallbackS (st : HubState) (s : Sub) (m : Message) : HubState × Sub :=
  let act := s.cb m.payload m
  let s' := if act.unsub then { s with aborted := true } else s
  match act.outcome with
  | .ret v =>
      (addToRunning st m.containsId (if v = .undef then .val (.boolean true) else .val v), s')
  | .throwV t =>
      let st1 := { st with errorEvents := st.errorEvents ++ [errorEventFor t] }
      (addToRunning st1 m.containsId (.cbError t), s')

/-- One listener of `dispatchEvent`: the listener registered by `sub` ignores
non-`Message` events (all events here are Messages), skips aborted
subscriptions (their listener has been removed by the abort signal), applies
route matching, and otherwise runs `handleCallback`. -/
def dispatchStep (m : Message) (acc : HubState × List Sub) (s : Sub) : HubState × List Sub :=
  if !s.aborted && match' s.route m.channel then
    let r := handleCallbackS acc.1 s m
    (r.1, acc.2 ++ [r.2])
  else (acc.1, acc.2 ++ [s])

/-- Model of `dispatchEvent(message)`: invoke every registered listener in registration
order (the listener list is snapshotted; callbacks can only abort their own
subscription). -/
def dispatchMessage (st : HubState) (m : Message) : HubState :=
  let r := st.subs.foldl (dispatchStep m) (st, [])
  { r.1 with subs := r.2 }

/-- Model of `Hub.getChannels`: the set of existing channel names matching `query`
(`'*'` short-circuits to all names; otherwise the query is normalized to an
array and filtered with `match`). -/
def getChannels (st : HubState) (query : MatchNeedle) : List String :=
  match query with
  | .one (.str s) =>
      if s = "*" then st.channels.map (·.1)
      else (st.channels.map (·.1)).filter (fun c => match' query c)
  | _ => (st.channels.map (·.1)).filter (fun c => match' query c)

/-- JS `Map.prototype.get` on the insertion-ordered channel map. -/
def mapGet : List (String × List Message) → String → Option (List Message)
  | [], _ => none
  | p :: rest, x => if x = p.1 then some p.2 else mapGet rest x

/-- Model of `Hub.channel`: throw on wildcard names, return an existing channel, or
create an empty one (appended to the insertion-ordered map). -/
def channel (st : HubState) (name : String) : Except String (HubState × String) :=
  if jsIncludesChar name '*' then .error "Channel names cannot contain wildcards."
  else
    match mapGet st.channels name with
    | some _ => .ok (st, name)
    | none => .ok ({ st with channels := st.channels ++ [(name, [])] }, name)

/-- Model of `Hub.makeChannel`. -/
def makeChannel (st : HubState) (name : String) : Except String (HubState × String) :=
  channel st name

/-- Appending a `Message` to a channel's proxied array: the proxy `set` trap
dispatches the event on the hub first, then `Reflect.set` stores it. -/
def channelPush (st : HubState) (name : String) (m : Message) : HubState :=
  let st1 := dispatchMessage st m
  { st1 with channels := st1.channels.map (fun p => if p.1 = name then (p.1, p.2 ++ [m]) else p) }

/-- A JS number used as a `limit`/`backlog` count: a natural or `Infinity`
(the only values the hub's callers use). -/
inductive JsNum where
  | fin (n : Nat)
  | inf
deriving Repr, DecidableEq

/-- Model of `arr.slice(0, limit)`. -/
def jsSlice (l : List Message) : JsNum → List Message
  | .fin n => l.take n
  | .inf => l

/-- The normalization `Array.isArray(cid) ? cid : [cid]`. -/
def needleToList : MatchNeedle → List Route
  | .one r => [r]
  | .many rs => rs

/-- Model of `Set.prototype.union` on insertion-ordered sets of names. -/
def setUnion (a b : List String) : List String :=
  a ++ b.filter (fun x => ¬ a.contains x)

/-- The deduplicated union of channel names resolved for a query's `cid`
(the `routes.reduce(..., new Set())` step of `getMessages`). -/
def resolvedQueryChannels (st : HubState) (cid : MatchNeedle) : List String :=
  (needleToList cid).foldl (fun coll r => setUnion coll (getChannels st (.one r))) []

/-- A `MessageQuery` (all fields optional at runtime; `cid` may be absent in
defensively-handled malformed queries). -/
structure MessageQuery where
  cid : Option MatchNeedle
  order : Option SortOrder
  limit : Option JsNum

def msgOrderProp (m : Message) : Option Int := some (m.order : Int)

/-- The reduce step of `getMessages`: concatenate each matching channel's log
onto the collection, re-sorting by `order` after each concatenation. -/
def collectSorted (st : HubState) (chans : List String) (order : SortOrder) : List Message :=
  chans.foldl (fun coll c =>
    match mapGet st.channels c with
    | some msgs => sortByProp (coll ++ msgs) msgOrderProp order
    | none => coll) []

/-- Model of `Hub.getMessages`: missing `cid` → `[]`; `limit` defaults to `1`,
`order` to `DESC`; `limit === 0` short-circuits; otherwise concatenate the
matching channels' logs, re-sorting by `order` at each step, and `slice` to
the limit. -/
def getMessages (st : HubState) (q : MessageQuery) : List Message :=
  match q.cid with
  | none => []
  | some cid =>
    let limit := q.limit.getD (.fin 1)
    let order := q.order.getD .DESC
    if limit = .fin 0 then []
    else jsSlice (collectSorted st (resolvedQueryChannels st cid) order) limit

/-- Replace the last element of a list. -/
def setLast (l : List Sub) (s : Sub) : List Sub := l.dropLast ++ [s]

/-- One iteration of the backlog-replay loop of `sub`: stop (`break`) once the
subscription's abort signal fired, otherwise run the listener — which
type-checks the event as a `Message`, applies route matching, and invokes the
callback via `handleCallback`. -/
def replayStep (chanRoute : MatchNeedle) (acc : HubState × Sub × List Message) (m : Message) :
    HubState × Sub × List Message :=
  if acc.2.1.aborted then acc
  else if match' chanRoute m.channel then
    let h := handleCallbackS acc.1 acc.2.1 m
    (h.1, h.2, acc.2.2 ++ [m])
  else acc

/-- Model of `Hub.sub`: register the listener (a fresh `AbortController`, appended to
the listener list), then synchronously replay `backlog` historical messages
(`getMessages` with `order: 'DESC'`), checking `controller.signal.aborted`
before each delivery.  The second component is the replay trace: the messages
for which the callback was invoked, in delivery order. -/
def subWithTrace (st : HubState) (chanRoute : MatchNeedle) (cb : Callback) (backlog : JsNum) :
    HubState × List Message :=
  let s0 : Sub := { route := chanRoute, cb := cb, aborted := false }
  let stAdd := { st with subs := st.subs ++ [s0] }
  let msgs := getMessages stAdd { cid := some chanRoute, order := some .DESC, limit := some backlog }
  let r := msgs.foldl (replayStep chanRoute) (stAdd, s0, [])
  ({ r.1 with subs := setLast r.1.subs r.2.1 }, r.2.2)

/-- The channel-resolution phase of `Hub.pub`: `getChannels` over the
normalized routes, then creation of channels for fully-qualified (literal,
wildcard-free) routes not already resolved.  Returns the updated state and
the resolved channel-name set in insertion order. -/
def pubChannelsStep (acc : HubState × List String) (route : Route) : HubState × List String :=
  match route with
  | .str s =>
      if ¬ jsIncludesChar s '*' ∧ ¬ acc.2.contains s then
        match channel acc.1 s with
        | .ok r => (r.1, acc.2 ++ [r.2])
        | .error _ => acc
      else acc
  | .regex _ => acc

def pubChannels (st : HubState) (routesL : List Route) : HubState × List String :=
  routesL.foldl pubChannelsStep (st, getChannels st (.many routesL))

/-- One step of the publish loop: construct the `Message` for `name` (the
static order counter is read and bumped at construction time) and push it
onto the channel's proxied array. -/
def pubPushStep (cid : Nat) (payload : JsVal) (s : HubState) (name : String) : HubState :=
  let m : Message := { channel := name, containsId := cid, payload := payload, order := s.nextOrder }
  channelPush { s with nextOrder := s.nextOrder + 1 } name m

/-- Model of `Hub.pub`: resolve/create target channels, allocate the per-call payload
wrapper (`const contains = {payload}` — a fresh identity), push one new
`Message` per channel (each push dispatches to the live subscriptions), then
settle: no recorded results → resolve `[]`; otherwise resolve with the
recorded result list (all synchronous results are already settled) and delete
the tracker entry.  The second component is the value the returned Promise
resolves with. -/
def pub (st : HubState) (routes : MatchNeedle) (payload : JsVal) : HubState × List CbResult :=
  let routesL := needleToList routes
  let r1 := pubChannels st routesL
  let cid := r1.1.nextContainsId
  let st2 := { r1.1 with nextContainsId := r1.1.nextContainsId + 1 }
  let st3 := r1.2.foldl (pubPushStep cid payload) st2
  let entries := (st3.running cid).getD []
  if entries.length = 0 then (st3, [])
  else ({ st3 with running := fun k => if k = cid then none else st3.running k }, entries)

/-! ## Characterization of callback handling and dispatch -/

/-- The Completion Tracker entry `handleCallback` records for one callback
invocation (`undefined` → `true`, thrown `t` → `CallbackError(t)`). -/
def entryFor (act : CbAct) : CbResult :=
  match act.outcome with
  | .ret v => if v = .undef then .val (.boolean true) else .val v
  | .throwV t => .cbError t

/-- The `ErrorEvent`s `handleCallback` dispatches for one callback invocation
(none on return, exactly one per throw). -/
def eventsFor (act : CbAct) : List ErrVal :=
  match act.outcome with
  | .ret _ => []
  | .throwV t => [errorEventFor t]

/-- The subscription state after a delivery attempt of `m` to `s`. -/
def updateSub (m : Message) (s : Sub) : Sub :=
  if !s.aborted && match' s.route m.channel then
    (if (s.cb m.payload m).unsub then { s with aborted := true } else s)
  else s

/-- The subscriptions whose listener runs the callback for `m`: live
(not aborted) and route-matching, in registration order. -/
def deliveredSubs (subs : List Sub) (m : Message) : List Sub :=
  subs.filter (fun s => !s.aborted && match' s.route m.channel)

theorem handleCallbackS_running_at (st : HubState) (s : Sub) (m : Message) :
    (((handleCallbackS st s m).1.running m.containsId).getD []) =
      ((st.running m.containsId).getD []) ++ [entryFor (s.cb m.payload m)] := by
  cases hout : (s.cb m.payload m).outcome with
  | ret v => simp [handleCallbackS, addToRunning, entryFor, hout]
  | throwV t => simp [handleCallbackS, addToRunning, entryFor, hout]

theorem handleCallbackS_running_ne (st : HubState) (s : Sub) (m : Message) (k : Nat)
    (hk : k ≠ m.containsId) : (handleCallbackS st s m).1.running k = st.running k := by
  cases hout : (s.cb m.payload m).outcome with
  | ret v => simp [handleCallbackS, addToRunning, hout, hk]
  | throwV t => simp [handleCallbackS, addToRunning, hout, hk]

theorem handleCallbackS_errorEvents (st : HubState) (s : Sub) (m : Message) :
    (handleCallbackS st s m).1.errorEvents =
      st.errorEvents ++ eventsFor (s.cb m.payload m) := by
  cases hout : (s.cb m.payload m).outcome with
  | ret v => simp [handleCallbackS, addToRunning, eventsFor, hout]
  | throwV t => simp [handleCallbackS, addToRunning, eventsFor, hout]

theorem handleCallbackS_channels (st : HubState) (s : Sub) (m : Message) :
    (handleCallbackS st s m).1.channels = st.channels := by
  cases hout : (s.cb m.payload m).outcome with
  | ret v => simp [handleCallbackS, addToRunning, hout]
  | throwV t => simp [handleCallbackS, addToRunning, hout]

theorem handleCallbackS_subs (st : HubState) (s : Sub) (m : Message) :
    (handleCallbackS st s m).1.subs = st.subs := by
  cases hout : (s.cb m.payload m).outcome with
  | ret v => simp [handleCallbackS, addToRunning, hout]
  | throwV t => simp [handleCallbackS, addToRunning, hout]

theorem handleCallbackS_nextOrder (st : HubState) (s : Sub) (m : Message) :
    (handleCallbackS st s m).1.nextOrder = st.nextOrder := by
  cases hout : (s.cb m.payload m).outcome with
  | ret v => simp [handleCallbackS, addToRunning, hout]
  | throwV t => simp [handleCallbackS, addToRunning, hout]

theorem handleCallbackS_nextContainsId (st : HubState) (s : Sub) (m : Message) :
    (handleCallbackS st s m).1.nextContainsId = st.nextContainsId := by
  cases hout : (s.cb m.payload m).outcome with
  | ret v => simp [handleCallbackS, addToRunning, hout]
  | throwV t => simp [handleCallbackS, addToRunning, hout]

theorem handleCallbackS_sub (st : HubState) (s : Sub) (m : Message) :
    (handleCallbackS st s m).2 =
      (if (s.cb m.payload m).unsub then { s with aborted := true } else s) := by
  cases hout : (s.cb m.payload m).outcome with
  | ret v => simp [handleCallbackS, hout]
  | throwV t => simp [handleCallbackS, hout]

theorem dispatchFold_spec (m : Message) :
    ∀ (subs : List Sub) (hs : HubState) (pre : List Sub),
      let r := subs.foldl (dispatchStep m) (hs, pre)
      ((r.1.running m.containsId).getD [] =
          (hs.running m.containsId).getD [] ++
            (deliveredSubs subs m).map (fun s => entryFor (s.cb m.payload m)))
      ∧ (∀ k, k ≠ m.containsId → r.1.running k = hs.running k)
      ∧ r.1.errorEvents = hs.errorEvents ++
          (deliveredSubs subs m).flatMap (fun s => eventsFor (s.cb m.payload m))
      ∧ r.1.channels = hs.channels
      ∧ r.1.nextOrder = hs.nextOrder
      ∧ r.1.nextContainsId = hs.nextContainsId
      ∧ r.2 = pre ++ subs.map (updateSub m) := by
  intro subs
  induction subs with
  | nil => intro hs pre; simp [deliveredSubs]
  | cons s rest ih =>
    intro hs pre
    cases hdel : (!s.aborted && match' s.route m.channel) with
    | true =>
      have h1 : (s :: rest).foldl (dispatchStep m) (hs, pre) =
          rest.foldl (dispatchStep m)
            ((handleCallbackS hs s m).1, pre ++ [(handleCallbackS hs s m).2]) := by
        simp [List.foldl_cons, dispatchStep, hdel]
      rw [h1]
      obtain ⟨ha, hb, hc, hd, he, hf, hg⟩ :=
        ih (handleCallbackS hs s m).1 (pre ++ [(handleCallbackS hs s m).2])
      refine ⟨?_, ?_, ?_, ?_, ?_, ?_, ?_⟩
      · rw [ha, handleCallbackS_running_at]
        simp [deliveredSubs, hdel]
      · intro k hk
        rw [hb k hk, handleCallbackS_running_ne _ _ _ _ hk]
      · rw [hc, handleCallbackS_errorEvents]
        simp [deliveredSubs, hdel]
      · rw [hd, handleCallbackS_channels]
      · rw [he, handleCallbackS_nextOrder]
      · rw [hf, handleCallbackS_nextContainsId]
      · rw [hg, handleCallbackS_sub]
        simp [updateSub, hdel]
    | false =>
      have h1 : (s :: rest).foldl (dispatchStep m) (hs, pre) =
          rest.foldl (dispatchStep m) (hs, pre ++ [s]) := by
        simp [List.foldl_cons, dispatchStep, hdel]
      rw [h1]
      obtain ⟨ha, hb, hc, hd, he, hf, hg⟩ := ih hs (pre ++ [s])
      refine ⟨?_, ?_, ?_, ?_, ?_, ?_, ?_⟩
      · rw [ha]; simp [deliveredSubs, hdel]
      · exact hb
      · rw [hc]; simp [deliveredSubs, hdel]
      · exact hd
      · exact he
      · exact hf
      · rw [hg]; simp [updateSub, hdel]

/-- Full characterization of one `dispatchEvent(message)` pass: the tracker
entry for the message's publish call gains one recorded result per delivered
subscription (in registration order), the hub's error-event log gains exactly
the events of the throwing callbacks, channels and counters are untouched,
and each delivered subscription that called `unsub` is aborted. -/
theorem dispatchMessage_spec (st : HubState) (m : Message) :
    ((dispatchMessage st m).running m.containsId).getD [] =
        (st.running m.containsId).getD [] ++
          (deliveredSubs st.subs m).map (fun s => entryFor (s.cb m.payload m))
    ∧ (∀ k, k ≠ m.containsId → (dispatchMessage st m).running k = st.running k)
    ∧ (dispatchMessage st m).errorEvents = st.errorEvents ++
        (deliveredSubs st.subs m).flatMap (fun s => eventsFor (s.cb m.payload m))
    ∧ (dispatchMessage st m).channels = st.channels
    ∧ (dispatchMessage st m).nextOrder = st.nextOrder
    ∧ (dispatchMessage st m).nextContainsId = st.nextContainsId
    ∧ (dispatchMessage st m).subs = st.subs.map (updateSub m) := by
  obtain ⟨ha, hb, hc, hd, he, hf, hg⟩ := dispatchFold_spec m st.subs st []
  exact ⟨ha, hb, hc, hd, he, hf, by simpa using hg⟩

/-! ## Association-list and sorting lemmas -/

theorem mapGet_isSome_of_mem_keys {l : List (String × List Message)} {x : String}
    (h : x ∈ l.map Prod.fst) : (mapGet l x).isSome := by
  induction l with
  | nil => simp at h
  | cons p rest ih =>
    by_cases he : x = p.1
    · simp [mapGet, he]
    · simp only [List.map_cons, List.mem_cons] at h
      have hx : x ∈ rest.map Prod.fst := by
        rcases h with h | h
        · exact absurd h he
        · exact h
      simpa [mapGet, he] using ih hx

theorem mem_of_mapGet_eq_some {l : List (String × List Message)} {x : String}
    {v : List Message} (h : mapGet l x = some v) : (x, v) ∈ l := by
  induction l with
  | nil => simp [mapGet] at h
  | cons p rest ih =>
    by_cases he : x = p.1
    · simp only [mapGet, if_pos he] at h
      obtain ⟨k, w⟩ := p
      cases h
      simp at he
      simp [he]
    · simp only [mapGet, if_neg he] at h
      exact List.mem_cons_of_mem _ (ih h)

theorem mapGet_append_fresh {l : List (String × List Message)} {x : String}
    (h : mapGet l x = none) : mapGet (l ++ [(x, [])]) x = some [] := by
  induction l with
  | nil => simp [mapGet]
  | cons p rest ih =>
    by_cases he : x = p.1
    · simp [mapGet, if_pos he] at h
    · simp only [List.cons_append, mapGet, if_neg he] at h ⊢
      exact ih h

theorem mapGet_mapUpdate (l : List (String × List Message)) (name c : String) (m : Message) :
    mapGet (l.map (fun p => if p.1 = name then (p.1, p.2 ++ [m]) else p)) c
      = if c = name then (mapGet l c).map (· ++ [m]) else mapGet l c := by
  induction l with
  | nil => simp [mapGet]
  | cons p rest ih =>
    by_cases hk : p.1 = name
    · by_cases hc : c = p.1
      · simp [mapGet, hk, hc, ih]
      · simp only [List.map_cons, if_pos hk]
        simp only [mapGet, if_neg hc]
        exact ih
    · by_cases hc : c = p.1
      · have hcname : ¬ c = name := fun h => hk (hc ▸ h)
        simp [mapGet, hk, hc, hcname]
      · simp only [List.map_cons, if_neg hk, mapGet, if_neg hc]
        exact ih

/-- Every entry of `sortByProp`'s output had a numeric key: non-numeric
entries are dropped, never crash the sort (the output is exactly a
permutation of the numeric-keyed entries). -/
theorem sortByProp_perm {O : Type} (arr : List O) (key : O → Option Int) (ord : SortOrder) :
    List.Perm (sortByProp arr key ord) (arr.filter (fun r => (key r).isSome)) :=
  List.perm_insertionSort _ _

theorem filter_msgOrderProp (l : List Message) :
    l.filter (fun m => (msgOrderProp m).isSome) = l :=
  List.filter_eq_self.mpr (by simp [msgOrderProp])

theorem sortByProp_msg_perm (l : List Message) (ord : SortOrder) :
    List.Perm (sortByProp l msgOrderProp ord) l := by
  have h := sortByProp_perm l msgOrderProp ord
  rwa [filter_msgOrderProp] at h

instance msgRelTotal (ord : SortOrder) :
    IsTotal Message (fun a b => keyLeV ord (msgOrderProp a) (msgOrderProp b) = true) := by
  constructor
  intro a b
  cases ord <;> simp [keyLeV, msgOrderProp] <;> omega

instance msgRelTrans (ord : SortOrder) :
    IsTrans Message (fun a b => keyLeV ord (msgOrderProp a) (msgOrderProp b) = true) := by
  constructor
  intro a b c hab hbc
  cases ord <;> simp [keyLeV, msgOrderProp] at hab hbc ⊢ <;> omega

theorem sortByProp_msg_sorted (l : List Message) (ord : SortOrder) :
    List.Sorted (fun a b => keyLeV ord (msgOrderProp a) (msgOrderProp b) = true)
      (sortByProp l msgOrderProp ord) :=
  List.sorted_insertionSort _ _

/-- The concatenation of the matching channels' logs, in channel-resolution
order — the multiset of messages `getMessages` sorts and slices. -/
def matchingMsgs (st : HubState) (cid : MatchNeedle) : List Message :=
  (resolvedQueryChannels st cid).flatMap (fun c => (mapGet st.channels c).getD [])

theorem collect_fold_perm (st : HubState) (ord : SortOrder) :
    ∀ (chans : List String) (coll : List Message),
      List.Perm
        (chans.foldl (fun coll c =>
          match mapGet st.channels c with
          | some msgs => sortByProp (coll ++ msgs) msgOrderProp ord
          | none => coll) coll)
        (coll ++ chans.flatMap (fun c => (mapGet st.channels c).getD [])) := by
  intro chans
  induction chans with
  | nil => intro coll; simp
  | cons c rest ih =>
    intro coll
    cases hget : mapGet st.channels c with
    | none =>
      simpa [List.foldl_cons, hget] using ih coll
    | some msgs =>
      have h1 := ih (sortByProp (coll ++ msgs) msgOrderProp ord)
      have h2 : List.Perm (sortByProp (coll ++ msgs) msgOrderProp ord) (coll ++ msgs) :=
        sortByProp_msg_perm _ _
      have h3 : List.Perm
          (sortByProp (coll ++ msgs) msgOrderProp ord ++
            rest.flatMap (fun c => (mapGet st.channels c).getD []))
          ((coll ++ msgs) ++ rest.flatMap (fun c => (mapGet st.channels c).getD [])) :=
        h2.append_right _
      have h4 := h1.trans h3
      have h5 : (coll ++ msgs) ++ rest.flatMap (fun c => (mapGet st.channels c).getD [])
          = coll ++ ((c :: rest).flatMap (fun c => (mapGet st.channels c).getD [])) := by
        simp [hget, List.append_assoc]
      rw [h5] at h4
      simpa [List.foldl_cons, hget] using h4

theorem collectSorted_perm (st : HubState) (cid : MatchNeedle) (ord : SortOrder) :
    List.Perm (collectSorted st (resolvedQueryChannels st cid) ord) (matchingMsgs st cid) := by
  simpa [collectSorted, matchingMsgs] using collect_fold_perm st ord (resolvedQueryChannels st cid) []

theorem collect_fold_sorted (st : HubState) (ord : SortOrder) :
    ∀ (chans : List String) (coll : List Message),
      List.Sorted (fun a b => keyLeV ord (msgOrderProp a) (msgOrderProp b) = true) coll →
      List.Sorted (fun a b => keyLeV ord (msgOrderProp a) (msgOrderProp b) = true)
        (chans.foldl (fun coll c =>
          match mapGet st.channels c with
          | some msgs => sortByProp (coll ++ msgs) msgOrderProp ord
          | none => coll) coll) := by
  intro chans
  induction chans with
  | nil => intro coll h; simpa using h
  | cons c rest ih =>
    intro coll h
    cases hget : mapGet st.channels c with
    | none => simpa [List.foldl_cons, hget] using ih coll h
    | some msgs =>
      have hs : List.Sorted (fun a b => keyLeV ord (msgOrderProp a) (msgOrderProp b) = true)
          (sortByProp (coll ++ msgs) msgOrderProp ord) := sortByProp_msg_sorted _ _
      simpa [List.foldl_cons, hget] using ih _ hs

theorem collectSorted_sorted (st : HubState) (chans : List String) (ord : SortOrder) :
    List.Sorted (fun a b => keyLeV ord (msgOrderProp a) (msgOrderProp b) = true)
      (collectSorted st chans ord) :=
  collect_fold_sorted st ord chans [] (by simp)

theorem getMessages_inf (st : HubState) (cid : MatchNeedle) (ord : Option SortOrder) :
    getMessages st { cid := some cid, order := ord, limit := some .inf }
      = collectSorted st (resolvedQueryChannels st cid) (ord.getD .DESC) := by
  simp [getMessages, jsSlice]

theorem getMessages_fin (st : HubState) (cid : MatchNeedle) (ord : Option SortOrder)
    (n : Nat) (hn : n ≠ 0) :
    getMessages st { cid := some cid, order := ord, limit := some (.fin n) }
      = (collectSorted st (resolvedQueryChannels st cid) (ord.getD .DESC)).take n := by
  have : (JsNum.fin n) ≠ .fin 0 := by simpa using hn
  simp [getMessages, jsSlice, this]

/-- The log of channel `x` (empty for a non-existent channel). -/
def chanLog (st : HubState) (x : String) : List Message :=
  (mapGet st.channels x).getD []

/-! ## Claim C2 -/

/-- A hub holding two messages on channel `test` (no subscribers), used to
exhibit the default-limit behaviour of `getMessages`. -/
def c2Hub : HubState :=
  (pub (pub emptyHub (.one (.str "test")) (.num 1)).1 (.one (.str "test")) (.num 2)).1

/-- C2, counterexample: with the `limit` field omitted, `getMessages` does
NOT return all matching messages — on a hub whose `test` channel holds two
messages it returns exactly one (the newest), because the destructuring
default is `limit = 1`, not unlimited. -/
theorem c2_counterexample :
    (getMessages c2Hub { cid := some (.one (.str "test")), order := none, limit := none }).length = 1
    ∧ (matchingMsgs c2Hub (.one (.str "test"))).length = 2 := by
  constructor <;> decide

/-- C2, amended: for every hub state and route `cid`, calling
`getMessages`/`query` with the `limit` field omitted applies the default
`limit = 1`: it returns the first element (by the requested order) of the
full sorted result — i.e. it truncates to one message; unlimited retrieval
requires an explicit `limit: Infinity`. -/
theorem c2_limit_omitted_defaults_to_one (st : HubState) (cid : MatchNeedle)
    (ord : Option SortOrder) :
    getMessages st { cid := some cid, order := ord, limit := none }
      = (getMessages st { cid := some cid, order := ord, limit := some .inf }).take 1 := by
  rw [getMessages_inf]
  simp [getMessages, jsSlice]

/-! ## Claim C1 -/

/-- C1: the claim states that a route with an infix/multiple `*` (such as
`'*dw*'`) matches no channel name.  The code disagrees: for such routes
`getAffix` returns `false`, and `match` then evaluates
`haystack.startsWith(undefined)`, which JS coerces to
`haystack.startsWith("undefined")` — so the wildcard-free (hence valid)
channel name `"undefined"` IS matched by `'*dw*'`, contradicting the claim
and the function's own documentation (``​`*or*` will needle nothing``). -/
theorem c1_infix_wildcard_matches_undefined :
    match' (.one (.str "*dw*")) "undefined" = true
    ∧ jsIncludesChar "undefined" '*' = false := by
  constructor <;> decide

/-! ## Claim C8 -/

/-- C8: `makeChannel` throws (synchronously, creating nothing) on any name
containing `*`; on a wildcard-free name it returns the name, and a second
call returns the same name on the unchanged hub state — idempotence. -/
theorem c8_makeChannel_idempotent (st : HubState) (name : String) :
    (jsIncludesChar name '*' = true →
      makeChannel st name = .error "Channel names cannot contain wildcards.")
    ∧ (jsIncludesChar name '*' = false →
      ∃ st', makeChannel st name = .ok (st', name)
        ∧ makeChannel st' name = .ok (st', name)) := by
  constructor
  · intro h
    simp [makeChannel, channel, h]
  · intro h
    cases hget : mapGet st.channels name with
    | some v =>
      exact ⟨st, by simp [makeChannel, channel, h, hget], by simp [makeChannel, channel, h, hget]⟩
    | none =>
      refine ⟨{ st with channels := st.channels ++ [(name, [])] },
        by simp [makeChannel, channel, h, hget], ?_⟩
      have h2 := mapGet_append_fresh hget
      simp [makeChannel, channel, h, h2]

/-- C8 witness: `createChannel('a*b')` throws; `createChannel('ab')` twice
returns `'ab'` both times without changing the hub after the first call. -/
theorem c8_witness :
    makeChannel emptyHub "a*b" = .error "Channel names cannot contain wildcards."
    ∧ ∃ st', makeChannel emptyHub "ab" = .ok (st', "ab")
        ∧ makeChannel st' "ab" = .ok (st', "ab") :=
  ⟨(c8_makeChannel_idempotent emptyHub "a*b").1 (by decide),
   (c8_makeChannel_idempotent emptyHub "ab").2 (by decide)⟩

/-! ## Claim C10 -/

/-- C10: a subscriber callback that returns `undefined` is recorded in the
Completion Tracker as the boolean `true` (`'undefined' === typeof result ?
true : result`), so its tracker entry — and hence its slot in the publish
result list — is indistinguishable from that of a callback returning `true`. -/
theorem c10_undefined_recorded_as_true (st : HubState) (s1 s2 : Sub) (m : Message)
    (h1 : (s1.cb m.payload m).outcome = .ret .undef)
    (h2 : (s2.cb m.payload m).outcome = .ret (.boolean true)) :
    ((handleCallbackS st s1 m).1.running m.containsId).getD []
      = (st.running m.containsId).getD [] ++ [CbResult.val (.boolean true)]
    ∧ (handleCallbackS st s1 m).1.running m.containsId
      = (handleCallbackS st s2 m).1.running m.containsId := by
  constructor
  · rw [handleCallbackS_running_at]
    simp [entryFor, h1]
  · simp [handleCallbackS, h1, h2, addToRunning]

def c10Msg : Message := { channel := "test", containsId := 0, payload := .num 1, order := 0 }

def c10SubUndef : Sub :=
  { route := .one (.str "test"), cb := fun _ _ => { outcome := .ret .undef, unsub := false },
    aborted := false }

def c10SubTrue : Sub :=
  { route := .one (.str "test"), cb := fun _ _ => { outcome := .ret (.boolean true), unsub := false },
    aborted := false }

/-- C10 witness: concrete undefined-returning and true-returning callbacks
record the same `true` entry. -/
theorem c10_witness :
    ((handleCallbackS emptyHub c10SubUndef c10Msg).1.running c10Msg.containsId).getD []
      = (emptyHub.running c10Msg.containsId).getD [] ++ [CbResult.val (.boolean true)]
    ∧ (handleCallbackS emptyHub c10SubUndef c10Msg).1.running c10Msg.containsId
      = (handleCallbackS emptyHub c10SubTrue c10Msg).1.running c10Msg.containsId :=
  c10_undefined_recorded_as_true emptyHub c10SubUndef c10SubTrue c10Msg rfl rfl

/-! ## Claim C9 -/

theorem sorted_desc_orders {l : List Message}
    (h : List.Sorted (fun a b => keyLeV .DESC (msgOrderProp a) (msgOrderProp b) = true) l) :
    List.Sorted (fun a b : Message => b.order ≤ a.order) l := by
  refine h.imp ?_
  intro a b hab
  simp [keyLeV, msgOrderProp] at hab
  exact_mod_cast hab

theorem sorted_asc_orders {l : List Message}
    (h : List.Sorted (fun a b => keyLeV .ASC (msgOrderProp a) (msgOrderProp b) = true) l) :
    List.Sorted (fun a b : Message => a.order ≤ b.order) l := by
  refine h.imp ?_
  intro a b hab
  simp [keyLeV, msgOrderProp] at hab
  exact_mod_cast hab

/-- C9: `getMessages` with unlimited `limit` returns (i) a permutation of the
concatenation of all matching channels' logs, (ii) sorted newest→oldest by
the global sequence number for `DESC`; (iii) when the matching messages'
sequence numbers are pairwise distinct (the hub's allocation invariant),
`ASC` returns exactly the reverse list; and (iv) the sort utility drops
entries with non-numeric keys rather than crashing or misordering: its output
is always a permutation of the numeric-keyed entries alone. -/
theorem c9_query_merges_by_sequence (st : HubState) (cid : MatchNeedle) :
    (List.Perm (getMessages st { cid := some cid, order := some .DESC, limit := some .inf })
        (matchingMsgs st cid)
      ∧ List.Sorted (fun a b : Message => b.order ≤ a.order)
          (getMessages st { cid := some cid, order := some .DESC, limit := some .inf }))
    ∧ ((matchingMsgs st cid).Pairwise (fun a b => a.order ≠ b.order) →
        getMessages st { cid := some cid, order := some .ASC, limit := some .inf }
          = (getMessages st { cid := some cid, order := some .DESC, limit := some .inf }).reverse)
    ∧ (∀ (O : Type) (arr : List O) (key : O → Option Int) (ord : SortOrder),
        List.Perm (sortByProp arr key ord) (arr.filter (fun r => (key r).isSome))) := by
  have hD : getMessages st { cid := some cid, order := some .DESC, limit := some .inf }
      = collectSorted st (resolvedQueryChannels st cid) .DESC := getMessages_inf st cid (some .DESC)
  have hA : getMessages st { cid := some cid, order := some .ASC, limit := some .inf }
      = collectSorted st (resolvedQueryChannels st cid) .ASC := getMessages_inf st cid (some .ASC)
  have permD := collectSorted_perm st cid .DESC
  have permA := collectSorted_perm st cid .ASC
  have sortedD := sorted_desc_orders (collectSorted_sorted st (resolvedQueryChannels st cid) .DESC)
  have sortedA := sorted_asc_orders (collectSorted_sorted st (resolvedQueryChannels st cid) .ASC)
  refine ⟨⟨by rw [hD]; exact permD, by rw [hD]; exact sortedD⟩, ?_, ?_⟩
  · intro hnd
    rw [hA, hD]
    have hndA : (collectSorted st (resolvedQueryChannels st cid) .ASC).Pairwise
        (fun a b => a.order ≠ b.order) :=
      (List.Perm.pairwise_iff (fun h he => h he.symm) permA).mpr hnd
    have hndD : (collectSorted st (resolvedQueryChannels st cid) .DESC).Pairwise
        (fun a b => a.order ≠ b.order) :=
      (List.Perm.pairwise_iff (fun h he => h he.symm) permD).mpr hnd
    have strictA : List.Sorted (fun a b : Message => a.order < b.order)
        (collectSorted st (resolvedQueryChannels st cid) .ASC) := by
      refine (sortedA.and hndA).imp ?_
      intro a b hab
      exact lt_of_le_of_ne hab.1 hab.2
    have sortedDrev : (collectSorted st (resolvedQueryChannels st cid) .DESC).reverse.Pairwise
        (fun a b : Message => a.order ≤ b.order) := by
      rw [List.pairwise_reverse]
      exact sortedD
    have hndDrev : (collectSorted st (resolvedQueryChannels st cid) .DESC).reverse.Pairwise
        (fun a b : Message => a.order ≠ b.order) := by
      rw [List.pairwise_reverse]
      refine hndD.imp ?_
      intro a b hab
      exact fun he => hab (he ▸ rfl)
    have strictDrev : List.Sorted (fun a b : Message => a.order < b.order)
        (collectSorted st (resolvedQueryChannels st cid) .DESC).reverse := by
      refine (sortedDrev.and hndDrev).imp ?_
      intro a b hab
      exact lt_of_le_of_ne hab.1 hab.2
    have permAD : List.Perm (collectSorted st (resolvedQueryChannels st cid) .ASC)
        (collectSorted st (resolvedQueryChannels st cid) .DESC).reverse :=
      (permA.trans permD.symm).trans (collectSorted st (resolvedQueryChannels st cid) .DESC).reverse_perm.symm
    haveI : IsAntisymm Message (fun a b : Message => a.order < b.order) :=
      ⟨fun a b h1 h2 => absurd h2 (Nat.lt_asymm h1)⟩
    exact List.eq_of_perm_of_sorted permAD strictA strictDrev
  · intro O arr key ord
    exact sortByProp_perm arr key ord

/-- Channels `a`, `b`, `c` populated in that order (one message each). -/
def c9Hub : HubState :=
  (pub (pub (pub emptyHub (.one (.str "a")) (.num 1)).1
    (.one (.str "b")) (.num 2)).1 (.one (.str "c")) (.num 3)).1

/-- C9 witness: on the concrete `a`,`b`,`c` hub the `ASC` query over `'*'` is
the reverse of the `DESC` query. -/
theorem c9_witness :
    getMessages c9Hub { cid := some (.one (.str "*")), order := some .ASC, limit := some .inf }
      = (getMessages c9Hub { cid := some (.one (.str "*")), order := some .DESC, limit := some .inf }).reverse :=
  (c9_query_merges_by_sequence c9Hub (.one (.str "*"))).2.1 (by decide)

/-! ## Publish-path lemmas -/

def keysNodup (st : HubState) : Prop := (st.channels.map Prod.fst).Nodup

/-- Identity freshness: the `contains` wrapper of the next `pub` call is a
brand-new object, so the `WeakMap` holds nothing under it (nor under any
later-allocated identity). -/
def runningFresh (st : HubState) : Prop :=
  ∀ k, st.nextContainsId ≤ k → st.running k = none

/-- Every stored message carries the name of the channel log holding it. -/
def logsWellChanneled (st : HubState) : Prop :=
  ∀ p ∈ st.channels, ∀ m ∈ p.2, m.channel = p.1

theorem mapGet_none_of_not_mem_keys {l : List (String × List Message)} {x : String}
    (h : x ∉ l.map Prod.fst) : mapGet l x = none := by
  induction l with
  | nil => rfl
  | cons p rest ih =>
    simp only [List.map_cons, List.mem_cons, not_or] at h
    simp only [mapGet, if_neg h.1]
    exact ih h.2

theorem matchRoute_literal {x : String} (hx : jsIncludesChar x '*' = false) (c : String) :
    matchRoute (.str x) c = decide (x = c) := by
  have hne : x ≠ "*" := by
    intro h
    rw [h] at hx
    simp [jsIncludesChar] at hx
  simp [matchRoute, hne, hx]

theorem filter_decide_eq_of_mem {names : List String} {x : String}
    (hnd : names.Nodup) (hmem : x ∈ names) :
    names.filter (fun c => decide (x = c)) = [x] := by
  induction names with
  | nil => simp at hmem
  | cons n rest ih =>
    rcases List.mem_cons.mp hmem with he | hm
    · subst he
      have hnx : x ∉ rest := (List.nodup_cons.mp hnd).1
      have : rest.filter (fun c => decide (x = c)) = [] := by
        apply List.filter_eq_nil_iff.mpr
        intro c hc
        simp only [decide_eq_true_eq]
        intro he2
        exact hnx (he2 ▸ hc)
      simp [List.filter_cons, this]
    · have hne : x ≠ n := by
        intro he2
        exact (List.nodup_cons.mp hnd).1 (he2 ▸ hm)
      have := ih (List.nodup_cons.mp hnd).2 hm
      simp [List.filter_cons, hne, this]

theorem filter_decide_eq_of_not_mem {names : List String} {x : String}
    (hmem : x ∉ names) :
    names.filter (fun c => decide (x = c)) = [] := by
  apply List.filter_eq_nil_iff.mpr
  intro c hc
  simp only [decide_eq_true_eq]
  intro he
  exact hmem (he ▸ hc)

theorem getChannels_single_literal {st : HubState} {x : String}
    (hx : jsIncludesChar x '*' = false) :
    getChannels st (.many [.str x])
      = (st.channels.map Prod.fst).filter (fun c => decide (x = c)) := by
  have : ∀ c, match' (.many [.str x]) c = decide (x = c) := by
    intro c
    simp [match', matchRoute_literal hx]
  simp [getChannels, this]

theorem pubChannels_single_existing {st : HubState} {x : String}
    (hx : jsIncludesChar x '*' = false) (hkeys : keysNodup st)
    (hmem : x ∈ st.channels.map Prod.fst) :
    pubChannels st [.str x] = (st, [x]) := by
  have hfq : getChannels st (.many [.str x]) = [x] := by
    rw [getChannels_single_literal hx]
    exact filter_decide_eq_of_mem hkeys hmem
  simp [pubChannels, pubChannelsStep, hfq, hx]

theorem pubChannels_single_fresh {st : HubState} {x : String}
    (hx : jsIncludesChar x '*' = false)
    (hmem : x ∉ st.channels.map Prod.fst) :
    pubChannels st [.str x] = ({ st with channels := st.channels ++ [(x, [])] }, [x]) := by
  have hfq : getChannels st (.many [.str x]) = [] := by
    rw [getChannels_single_literal hx]
    exact filter_decide_eq_of_not_mem hmem
  have hget : mapGet st.channels x = none := mapGet_none_of_not_mem_keys hmem
  simp [pubChannels, pubChannelsStep, hfq, hx, channel, hget]

theorem channelPush_spec (st : HubState) (name : String) (m : Message) :
    ((channelPush st name m).running m.containsId).getD []
        = (st.running m.containsId).getD []
          ++ (deliveredSubs st.subs m).map (fun s => entryFor (s.cb m.payload m))
    ∧ (∀ k, k ≠ m.containsId → (channelPush st name m).running k = st.running k)
    ∧ (channelPush st name m).errorEvents = st.errorEvents
        ++ (deliveredSubs st.subs m).flatMap (fun s => eventsFor (s.cb m.payload m))
    ∧ (channelPush st name m).channels
        = st.channels.map (fun p => if p.1 = name then (p.1, p.2 ++ [m]) else p)
    ∧ (channelPush st name m).subs = st.subs.map (updateSub m)
    ∧ (channelPush st name m).nextOrder = st.nextOrder
    ∧ (channelPush st name m).nextContainsId = st.nextContainsId := by
  obtain ⟨ha, hb, hc, hd, he, hf, hg⟩ := dispatchMessage_spec st m
  refine ⟨ha, hb, hc, by rw [channelPush]; simpa using hd ▸ rfl, ?_, ?_, ?_⟩
  · show (dispatchMessage st m).subs = _
    exact hg
  · show (dispatchMessage st m).nextOrder = _
    exact he
  · show (dispatchMessage st m).nextContainsId = _
    exact hf

theorem keys_mapUpdate (l : List (String × List Message)) (name : String) (m : Message) :
    (l.map (fun p => if p.1 = name then (p.1, p.2 ++ [m]) else p)).map Prod.fst
      = l.map Prod.fst := by
  induction l with
  | nil => rfl
  | cons p rest ih =>
    by_cases hp : p.1 = name
    · simp [hp, ih]
    · simp [hp, ih]

theorem pub_single_literal (st : HubState) (x : String) (v : JsVal)
    (hx : jsIncludesChar x '*' = false) (hkeys : keysNodup st) (hfresh : runningFresh st) :
    (pub st (.one (.str x)) v).2
        = (deliveredSubs st.subs ⟨x, st.nextContainsId, v, st.nextOrder⟩).map
            (fun s => entryFor (s.cb v ⟨x, st.nextContainsId, v, st.nextOrder⟩))
    ∧ (pub st (.one (.str x)) v).1.errorEvents
        = st.errorEvents ++ (deliveredSubs st.subs ⟨x, st.nextContainsId, v, st.nextOrder⟩).flatMap
            (fun s => eventsFor (s.cb v ⟨x, st.nextContainsId, v, st.nextOrder⟩))
    ∧ chanLog (pub st (.one (.str x)) v).1 x
        = chanLog st x ++ [⟨x, st.nextContainsId, v, st.nextOrder⟩]
    ∧ (pub st (.one (.str x)) v).1.nextOrder = st.nextOrder + 1
    ∧ (pub st (.one (.str x)) v).1.nextContainsId = st.nextContainsId + 1
    ∧ (∀ k, k ≠ st.nextContainsId → (pub st (.one (.str x)) v).1.running k = st.running k)
    ∧ (pub st (.one (.str x)) v).1.subs
        = st.subs.map (updateSub ⟨x, st.nextContainsId, v, st.nextOrder⟩)
    ∧ keysNodup (pub st (.one (.str x)) v).1
    ∧ runningFresh (pub st (.one (.str x)) v).1 := by
  have hstc : ∃ stc : HubState, pubChannels st [.str x] = (stc, [x])
      ∧ stc.subs = st.subs ∧ stc.running = st.running ∧ stc.errorEvents = st.errorEvents
      ∧ stc.nextOrder = st.nextOrder ∧ stc.nextContainsId = st.nextContainsId
      ∧ mapGet stc.channels x = some (chanLog st x)
      ∧ keysNodup stc := by
    by_cases hmem : x ∈ st.channels.map Prod.fst
    · refine ⟨st, pubChannels_single_existing hx hkeys hmem, rfl, rfl, rfl, rfl, rfl, ?_, hkeys⟩
      have hs := mapGet_isSome_of_mem_keys (l := st.channels) hmem
      cases hg : mapGet st.channels x with
      | none => rw [hg] at hs; simp at hs
      | some log => simp [chanLog, hg]
    · refine ⟨{ st with channels := st.channels ++ [(x, [])] },
        pubChannels_single_fresh hx hmem, rfl, rfl, rfl, rfl, rfl, ?_, ?_⟩
      · have hg : mapGet st.channels x = none := mapGet_none_of_not_mem_keys hmem
        have := mapGet_append_fresh hg
        simp only [this, chanLog, hg]
        rfl
      · show (({ st with channels := st.channels ++ [(x, [])] }).channels.map Prod.fst).Nodup
        simp only [List.map_append]
        rw [List.nodup_append]
        refine ⟨hkeys, by simp, ?_⟩
        intro a ha
        simp only [List.map_cons, List.map_nil, List.mem_singleton]
        intro he
        exact hmem (he ▸ ha)
  obtain ⟨stc, hpc, hsubs, hrun, herr, hord, hcid, hgetx, hknd⟩ := hstc
  set m : Message := ⟨x, st.nextContainsId, v, st.nextOrder⟩ with hmdef
  set stPush : HubState :=
    { stc with nextContainsId := stc.nextContainsId + 1, nextOrder := stc.nextOrder + 1 } with hstPush
  have hpub : pub st (.one (.str x)) v =
      (let st3 := channelPush stPush x m
       let entries := (st3.running st.nextContainsId).getD []
       if entries.length = 0 then (st3, [])
       else ({ st3 with running := fun k => if k = st.nextContainsId then none else st3.running k },
             entries)) := by
    show pub st (.one (.str x)) v = _
    rw [pub]
    rw [show needleToList (.one (.str x)) = [.str x] from rfl, hpc]
    simp only [hcid, hord, hstPush, hmdef]
    rfl
  obtain ⟨hA, hB, hC, hD, hE2, hF, hG⟩ := channelPush_spec stPush x m
  have hmc : m.containsId = st.nextContainsId := by rw [hmdef]
  have hpm : m.payload = v := by rw [hmdef]
  have hsubsP : stPush.subs = st.subs := hsubs
  have hrunP : stPush.running = st.running := hrun
  have herrP : stPush.errorEvents = st.errorEvents := herr
  rw [hmc] at hA hB
  rw [hrunP] at hA
  rw [hsubsP] at hA hE2
  rw [hpm] at hA hC
  rw [hfresh st.nextContainsId (le_refl _)] at hA
  simp only [Option.getD_none, List.nil_append] at hA
  rw [herrP, hsubsP] at hC
  have hchan3 : chanLog (channelPush stPush x m) x = chanLog st x ++ [m] := by
    rw [chanLog, hD]
    rw [show stPush.channels = stc.channels from rfl]
    rw [mapGet_mapUpdate, if_pos rfl, hgetx]
    rfl
  have hknd3 : keysNodup (channelPush stPush x m) := by
    rw [keysNodup, hD]
    rw [show stPush.channels = stc.channels from rfl, keys_mapUpdate]
    exact hknd
  have hord3 : (channelPush stPush x m).nextOrder = st.nextOrder + 1 := by
    rw [hF]
    show stc.nextOrder + 1 = _
    rw [hord]
  have hcid3 : (channelPush stPush x m).nextContainsId = st.nextContainsId + 1 := by
    rw [hG]
    show stc.nextContainsId + 1 = _
    rw [hcid]
  have hsubs3 : (channelPush stPush x m).subs = st.subs.map (updateSub m) := by
    rw [hE2]
  rw [hpub]
  simp only [hA]
  by_cases hlen : ((deliveredSubs st.subs m).map (fun s => entryFor (s.cb v m))).length = 0
  · have hnil : (deliveredSubs st.subs m).map (fun s => entryFor (s.cb v m)) = [] :=
      List.length_eq_zero.mp hlen
    rw [if_pos hlen]
    refine ⟨hnil.symm, hC, hchan3, hord3, hcid3, ?_, hsubs3, hknd3, ?_⟩
    · intro k hk
      show (channelPush stPush x m).running k = st.running k
      rw [hB k hk, hrunP]
    · intro k hk
      have hk3 : st.nextContainsId + 1 ≤ k := by rw [← hcid3]; exact hk
      have hk2 : k ≠ st.nextContainsId := by omega
      show (channelPush stPush x m).running k = none
      rw [hB k hk2, hrunP]
      exact hfresh k (by omega)
  · rw [if_neg hlen]
    refine ⟨rfl, hC, hchan3, hord3, hcid3, ?_, hsubs3, hknd3, ?_⟩
    · intro k hk
      show (if k = st.nextContainsId then none else (channelPush stPush x m).running k) = st.running k
      rw [if_neg hk, hB k hk, hrunP]
    · intro k hk
      have hk3 : st.nextContainsId + 1 ≤ k := by
        rw [show ({ channelPush stPush x m with
              running := fun k => if k = st.nextContainsId then none
                else (channelPush stPush x m).running k } : HubState).nextContainsId
            = (channelPush stPush x m).nextContainsId from rfl, hcid3] at hk
        exact hk
      have hk2 : k ≠ st.nextContainsId := by omega
      show (if k = st.nextContainsId then none else (channelPush stPush x m).running k) = none
      rw [if_neg hk2, hB k hk2, hrunP]
      exact hfresh k (by omega)

/-! ## Claim C5 -/

/-- C5: two sequential `pub(x, v)` calls with equal payload values create two
distinct `Message`s (fresh sequence numbers) whose Completion-Tracker keys —
the identities of the per-call `{payload}` wrapper objects — are distinct, so
the two calls' in-flight result lists can never collide or coalesce. -/
theorem c5_sequential_pubs_distinct (st : HubState) (x : String) (v : JsVal)
    (hx : jsIncludesChar x '*' = false) (hkeys : keysNodup st) (hfresh : runningFresh st) :
    chanLog (pub st (.one (.str x)) v).1 x
        = chanLog st x ++ [⟨x, st.nextContainsId, v, st.nextOrder⟩]
    ∧ chanLog (pub (pub st (.one (.str x)) v).1 (.one (.str x)) v).1 x
        = chanLog st x
            ++ [⟨x, st.nextContainsId, v, st.nextOrder⟩,
                ⟨x, st.nextContainsId + 1, v, st.nextOrder + 1⟩]
    ∧ (⟨x, st.nextContainsId, v, st.nextOrder⟩ : Message)
        ≠ ⟨x, st.nextContainsId + 1, v, st.nextOrder + 1⟩
    ∧ (st.nextContainsId : Nat) ≠ st.nextContainsId + 1
    ∧ (st.nextOrder : Nat) ≠ st.nextOrder + 1 := by
  obtain ⟨_, _, hlog1, hord1, hcid1, _, _, hknd1, hfr1⟩ :=
    pub_single_literal st x v hx hkeys hfresh
  obtain ⟨_, _, hlog2, _, _, _, _, _, _⟩ :=
    pub_single_literal (pub st (.one (.str x)) v).1 x v hx hknd1 hfr1
  refine ⟨hlog1, ?_, ?_, by omega, by omega⟩
  · rw [hlog2, hcid1, hord1, hlog1, List.append_assoc]
    rfl
  · intro h
    have := congrArg Message.containsId h
    simp at this

/-- A concrete hub for the C5 scenario. -/
def c5Hub : HubState := emptyHub

/-- C5 witness: two sequential publishes of `'same-value'` to `x` on the empty
hub append two messages with sequence numbers 0 and 1 and wrapper identities
0 and 1. -/
theorem c5_witness :
    chanLog (pub c5Hub (.one (.str "x")) (.str "same-value")).1 "x"
        = chanLog c5Hub "x" ++ [⟨"x", 0, .str "same-value", 0⟩]
    ∧ chanLog (pub (pub c5Hub (.one (.str "x")) (.str "same-value")).1
          (.one (.str "x")) (.str "same-value")).1 "x"
        = chanLog c5Hub "x"
            ++ [⟨"x", 0, .str "same-value", 0⟩, ⟨"x", 1, .str "same-value", 1⟩]
    ∧ (⟨"x", 0, .str "same-value", 0⟩ : Message) ≠ ⟨"x", 1, .str "same-value", 1⟩
    ∧ (0 : Nat) ≠ 1
    ∧ (0 : Nat) ≠ 1 :=
  c5_sequential_pubs_distinct c5Hub "x" (.str "same-value") (by decide)
    List.Pairwise.nil (fun _ _ => rfl)

/-! ## Claim C4 -/

/-- C4: when a publish dispatches to the live matching subscriptions, the
resolved result list has one entry per matching subscription in registration
order — a throwing callback does not prevent any other subscriber from being
invoked or recorded; the throwing callback's slot holds the distinguishable
`CallbackError` wrapping the thrown value as its cause, and the hub's
error-event log gains exactly one `ErrorEvent` per throw (a thrown non-Error
is additionally wrapped in the generic `Error`-shaped wrapper, its cause
chain still reaching the original value). -/
theorem c4_callback_throw_isolated (st : HubState) (x : String) (payload : JsVal)
    (hx : jsIncludesChar x '*' = false) (hkeys : keysNodup st) (hfresh : runningFresh st) :
    (pub st (.one (.str x)) payload).2
        = (deliveredSubs st.subs ⟨x, st.nextContainsId, payload, st.nextOrder⟩).map
            (fun s => entryFor (s.cb payload ⟨x, st.nextContainsId, payload, st.nextOrder⟩))
    ∧ (pub st (.one (.str x)) payload).1.errorEvents
        = st.errorEvents
          ++ (deliveredSubs st.subs ⟨x, st.nextContainsId, payload, st.nextOrder⟩).flatMap
              (fun s => eventsFor (s.cb payload ⟨x, st.nextContainsId, payload, st.nextOrder⟩))
    ∧ (∀ (act : CbAct) (t : ThrownVal), act.outcome = .throwV t →
        entryFor act = .cbError t
        ∧ eventsFor act = [errorEventFor t]
        ∧ (errorEventFor t).reaches t = true
        ∧ (t.isError = false → errorEventFor t = .wrapError (.callbackError t))) := by
  obtain ⟨hres, herr, _, _, _, _, _, _, _⟩ := pub_single_literal st x payload hx hkeys hfresh
  refine ⟨hres, herr, ?_⟩
  intro act t hthrow
  refine ⟨by simp [entryFor, hthrow], by simp [eventsFor, hthrow], ?_, ?_⟩
  · cases hE : t.isError <;> simp [errorEventFor, ErrVal.reaches, hE]
  · intro hE
    simp [errorEventFor, hE]

/-- A hub with one `test` channel and two live subscriptions: the first
callback throws the non-Error string `'boom'`, the second returns `7`. -/
def c4Hub : HubState :=
  { channels := [("test", [])],
    subs :=
      [{ route := .one (.str "test"),
         cb := fun _ _ => { outcome := .throwV { val := .str "boom", isError := false }, unsub := false },
         aborted := false },
       { route := .one (.str "test"),
         cb := fun _ _ => { outcome := .ret (.num 7), unsub := false },
         aborted := false }],
    running := fun _ => none, errorEvents := [],
    nextOrder := 0, nextContainsId := 0 }

/-- C4 witness: on the concrete hub the publish future resolves with the
wrapped error in slot 0 and the second subscriber's `7` in slot 1, and
exactly one error event (the non-Error throw wrapped once more) is raised. -/
theorem c4_witness :
    (pub c4Hub (.one (.str "test")) (.num 5)).2
        = [.cbError { val := .str "boom", isError := false }, .val (.num 7)]
    ∧ (pub c4Hub (.one (.str "test")) (.num 5)).1.errorEvents
        = [.wrapError (.callbackError { val := .str "boom", isError := false })] := by
  have h := c4_callback_throw_isolated c4Hub "test" (.num 5) (by decide)
    (show (("test" : String) :: []).Nodup by decide) (fun _ _ => rfl)
  exact ⟨h.1.trans (by decide), h.2.1.trans (by decide)⟩

/-! ## Claim C7 -/

theorem updateSub_route (m : Message) (s : Sub) : (updateSub m s).route = s.route := by
  simp only [updateSub]
  split_ifs <;> rfl

theorem updateSub_not_aborted (m : Message) (s : Sub)
    (h : (updateSub m s).aborted = false) : s.aborted = false := by
  simp only [updateSub] at h
  split_ifs at h <;> simp_all

theorem pubChannelsStep_preserves (acc : HubState × List String) (route : Route) :
    (pubChannelsStep acc route).1.subs = acc.1.subs
    ∧ (pubChannelsStep acc route).1.running = acc.1.running
    ∧ (pubChannelsStep acc route).1.nextContainsId = acc.1.nextContainsId := by
  cases route with
  | regex t => exact ⟨rfl, rfl, rfl⟩
  | str s =>
    simp only [pubChannelsStep]
    split_ifs with h
    · cases hc : channel acc.1 s with
      | error e => simp
      | ok r =>
        simp only [hc]
        rw [channel] at hc
        split_ifs at hc with h2
        · cases hg : mapGet acc.1.channels s with
          | some v => rw [hg] at hc; cases hc; exact ⟨rfl, rfl, rfl⟩
          | none => rw [hg] at hc; cases hc; exact ⟨rfl, rfl, rfl⟩
    · exact ⟨rfl, rfl, rfl⟩

theorem pubChannels_preserves (routesL : List Route) :
    ∀ (acc : HubState × List String),
      (routesL.foldl pubChannelsStep acc).1.subs = acc.1.subs
      ∧ (routesL.foldl pubChannelsStep acc).1.running = acc.1.running
      ∧ (routesL.foldl pubChannelsStep acc).1.nextContainsId = acc.1.nextContainsId := by
  induction routesL with
  | nil => intro acc; exact ⟨rfl, rfl, rfl⟩
  | cons r rest ih =>
    intro acc
    obtain ⟨h1, h2, h3⟩ := ih (pubChannelsStep acc r)
    obtain ⟨g1, g2, g3⟩ := pubChannelsStep_preserves acc r
    exact ⟨h1.trans g1, h2.trans g2, h3.trans g3⟩

/-- Over the publish loop, if no live subscription matches any pushed channel
name, the Completion Tracker entry at the call's key stays empty and
subscriptions only weaken (routes unchanged, aborted flags monotone). -/
theorem pubPushFold_no_match (cid : Nat) (payload : JsVal) (origSubs : List Sub) :
    ∀ (fq : List String) (s : HubState),
      (∀ sub1 ∈ s.subs, ∃ sub0 ∈ origSubs,
        sub1.route = sub0.route ∧ (sub1.aborted = false → sub0.aborted = false)) →
      (∀ sub0 ∈ origSubs, sub0.aborted = false → ∀ c ∈ fq, match' sub0.route c = false) →
      ((s.running cid).getD [] = []) →
      (((fq.foldl (pubPushStep cid payload) s).running cid).getD [] = []) := by
  intro fq
  induction fq with
  | nil => intro s hinv hnm hrun; simpa using hrun
  | cons name rest ih =>
    intro s hinv hnm hrun
    have hdel : deliveredSubs s.subs ⟨name, cid, payload, s.nextOrder⟩ = [] := by
      apply List.filter_eq_nil_iff.mpr
      intro sub1 hs1
      obtain ⟨sub0, hs0, hroute, habr⟩ := hinv sub1 hs1
      cases hab : sub1.aborted with
      | true => simp [hab]
      | false =>
        have h0 : sub0.aborted = false := habr hab
        have hm := hnm sub0 hs0 h0 name (by simp)
        simp [hab, hroute, hm]
    have hstep : pubPushStep cid payload s name
        = channelPush { s with nextOrder := s.nextOrder + 1 } name
            ⟨name, cid, payload, s.nextOrder⟩ := rfl
    obtain ⟨hA, _, _, _, hE, _, _⟩ :=
      channelPush_spec { s with nextOrder := s.nextOrder + 1 } name
        ⟨name, cid, payload, s.nextOrder⟩
    have hrun' : ((pubPushStep cid payload s name).running cid).getD [] = [] := by
      rw [hstep, hA]
      show ((s.running cid).getD []) ++ _ = []
      rw [hrun, hdel]
      simp
    have hinv' : ∀ sub1 ∈ (pubPushStep cid payload s name).subs, ∃ sub0 ∈ origSubs,
        sub1.route = sub0.route ∧ (sub1.aborted = false → sub0.aborted = false) := by
      intro sub1 hs1
      rw [hstep, hE] at hs1
      obtain ⟨subM, hsM, hEq⟩ := List.mem_map.mp hs1
      obtain ⟨sub0, hs0, hroute, habr⟩ := hinv subM hsM
      refine ⟨sub0, hs0, ?_, ?_⟩
      · rw [← hEq, updateSub_route, hroute]
      · intro hab
        exact habr (updateSub_not_aborted _ _ (hEq ▸ hab))
    have hnm' : ∀ sub0 ∈ origSubs, sub0.aborted = false →
        ∀ c ∈ rest, match' sub0.route c = false := by
      intro sub0 hs0 h0 c hc
      exact hnm sub0 hs0 h0 c (by simp [hc])
    simpa [List.foldl_cons] using ih (pubPushStep cid payload s name) hinv' hnm' hrun'

/-- C7: a publish in which no live subscription's route matches any resolved
target channel invokes no callback; the returned future resolves — not
rejects — with the empty result list. -/
theorem c7_no_match_resolves_empty (st : HubState) (routes : MatchNeedle) (payload : JsVal)
    (hfresh : st.running st.nextContainsId = none)
    (hnomatch : ∀ s ∈ st.subs, s.aborted = false →
      ∀ c ∈ (pubChannels st (needleToList routes)).2, match' s.route c = false) :
    (pub st routes payload).2 = [] := by
  obtain ⟨hsubs, hrun, hcid⟩ := pubChannels_preserves (needleToList routes)
      (st, getChannels st (.many (needleToList routes)))
  have hpc : pubChannels st (needleToList routes)
      = (needleToList routes).foldl pubChannelsStep
          (st, getChannels st (.many (needleToList routes))) := rfl
  set stc := (pubChannels st (needleToList routes)).1 with hstc
  set fq := (pubChannels st (needleToList routes)).2 with hfq
  have hsubs' : stc.subs = st.subs := by rw [hstc, hpc]; exact hsubs
  have hrun' : stc.running = st.running := by rw [hstc, hpc]; exact hrun
  have hcid' : stc.nextContainsId = st.nextContainsId := by rw [hstc, hpc]; exact hcid
  have hfold := pubPushFold_no_match stc.nextContainsId payload st.subs fq
    { stc with nextContainsId := stc.nextContainsId + 1 }
    (by
      intro sub1 hs1
      rw [show ({ stc with nextContainsId := stc.nextContainsId + 1 } : HubState).subs
          = st.subs from hsubs'] at hs1
      exact ⟨sub1, hs1, rfl, fun h => h⟩)
    (by
      intro sub0 hs0 h0 c hc
      exact hnomatch sub0 hs0 h0 c (hfq ▸ hc))
    (by
      show (stc.running stc.nextContainsId).getD [] = []
      rw [hrun', hcid', hfresh]
      rfl)
  have hpub : pub st routes payload
      = (let st3 := fq.foldl (pubPushStep stc.nextContainsId payload)
            { stc with nextContainsId := stc.nextContainsId + 1 }
         let entries := (st3.running stc.nextContainsId).getD []
         if entries.length = 0 then (st3, [])
         else ({ st3 with
                  running := fun k => if k = stc.nextContainsId then none else st3.running k },
               entries)) := rfl
  rw [hpub]
  simp only [hfold]
  rfl

/-- A hub whose only live subscription listens on `other`. -/
def c7Hub : HubState :=
  { channels := [("other", []), ("test", [])],
    subs := [{ route := .one (.str "other"),
               cb := fun _ _ => { outcome := .ret (.num 1), unsub := false },
               aborted := false }],
    running := fun _ => none, errorEvents := [],
    nextOrder := 0, nextContainsId := 0 }

/-- C7 witness: publishing to `test` with only an `other` subscriber resolves
with the empty result list. -/
theorem c7_witness : (pub c7Hub (.one (.str "test")) (.num 1)).2 = [] :=
  c7_no_match_resolves_empty c7Hub (.one (.str "test")) (.num 1) rfl (by decide)

theorem replayFold_halt (chanRoute : MatchNeedle) (cb : Callback) :
    ∀ (msgs : List Message) (acc : HubState × Sub × List Message),
      acc.2.1.cb = cb →
      (∀ k mk, acc.2.2.get? k = some mk → (cb mk.payload mk).unsub = true →
        acc.2.2.length = k + 1 ∧ acc.2.1.aborted = true) →
      ((msgs.foldl (replayStep chanRoute) acc).2.1.cb = cb
       ∧ ∀ k mk, (msgs.foldl (replayStep chanRoute) acc).2.2.get? k = some mk →
          (cb mk.payload mk).unsub = true →
          (msgs.foldl (replayStep chanRoute) acc).2.2.length = k + 1
          ∧ (msgs.foldl (replayStep chanRoute) acc).2.1.aborted = true) := by
  intro msgs
  induction msgs with
  | nil => intro acc hcb hinv; exact ⟨hcb, hinv⟩
  | cons m rest ih =>
    intro acc hcb hinv
    rw [List.foldl_cons]
    cases hab : acc.2.1.aborted with
    | true =>
      have hstep : replayStep chanRoute acc m = acc := by simp [replayStep, hab]
      rw [hstep]
      exact ih acc hcb hinv
    | false =>
      cases hm : match' chanRoute m.channel with
      | false =>
        have hstep : replayStep chanRoute acc m = acc := by simp [replayStep, hab, hm]
        rw [hstep]
        exact ih acc hcb hinv
      | true =>
        have hstep : replayStep chanRoute acc m
            = ((handleCallbackS acc.1 acc.2.1 m).1, (handleCallbackS acc.1 acc.2.1 m).2,
               acc.2.2 ++ [m]) := by simp [replayStep, hab, hm]
        rw [hstep]
        apply ih
        · show (handleCallbackS acc.1 acc.2.1 m).2.cb = cb
          rw [handleCallbackS_sub]
          split_ifs <;> simpa using hcb
        · intro k mk hget hunsub
          rcases Nat.lt_trichotomy k acc.2.2.length with hlt | heq | hgt
          · have hgetold : acc.2.2.get? k = some mk := by
              rw [← List.get?_append hlt]
              exact hget
            have hcontra := (hinv k mk hgetold hunsub).2
            rw [hab] at hcontra
            cases hcontra
          · have hgetm : (acc.2.2 ++ [m]).get? acc.2.2.length = some m :=
              List.get?_concat_length _ _
            rw [← heq] at hgetm
            have hmk : mk = m := by
              rw [hget] at hgetm
              exact Option.some.inj hgetm
            constructor
            · simp [List.length_append, heq]
            · show (handleCallbackS acc.1 acc.2.1 m).2.aborted = true
              rw [handleCallbackS_sub]
              have hu : (acc.2.1.cb m.payload m).unsub = true := by
                rw [hcb]
                rw [← hmk]
                exact hunsub
              simp [hu]
          · have : (acc.2.2 ++ [m]).get? k = none := by
              apply List.get?_eq_none.mpr
              simp only [List.length_append, List.length_cons, List.length_nil]
              omega
            rw [this] at hget
            cases hget

/-- C6: unsubscribing from inside the callback during backlog replay halts
replay immediately: the delivery in which `unsub` was invoked is the last one
— messages already selected for replay but not yet delivered are never
delivered, because the loop checks the abort signal before each delivery. -/
theorem c6_unsub_halts_replay (st : HubState) (chanRoute : MatchNeedle) (cb : Callback)
    (backlog : JsNum) (k : Nat) (mk : Message)
    (hget : (subWithTrace st chanRoute cb backlog).2.get? k = some mk)
    (hunsub : (cb mk.payload mk).unsub = true) :
    (subWithTrace st chanRoute cb backlog).2.length = k + 1 := by
  have hbase := replayFold_halt chanRoute cb
    (getMessages { st with subs := st.subs ++ [{ route := chanRoute, cb := cb, aborted := false }] }
      { cid := some chanRoute, order := some .DESC, limit := some backlog })
    ({ st with subs := st.subs ++ [{ route := chanRoute, cb := cb, aborted := false }] },
      { route := chanRoute, cb := cb, aborted := false }, [])
    rfl
    (by intro k mk h hu; simp [List.get?] at h)
  exact (hbase.2 k mk hget hunsub).1

def c6Hub : HubState :=
  { channels := [("t", [{ channel := "t", containsId := 0, payload := .num 1, order := 0 },
                        { channel := "t", containsId := 1, payload := .num 2, order := 1 }])],
    subs := [], running := fun _ => none, errorEvents := [],
    nextOrder := 2, nextContainsId := 2 }

def c6Cb : Callback := fun _ _ => { outcome := .ret .undef, unsub := true }

/-- C6 witness: with two backlog messages and a callback that unsubscribes on
its first delivery, exactly one message is replayed. -/
theorem c6_witness :
    (subWithTrace c6Hub (.one (.str "t")) c6Cb (.fin 2)).2.length = 0 + 1 :=
  c6_unsub_halts_replay c6Hub (.one (.str "t")) c6Cb (.fin 2) 0
    { channel := "t", containsId := 1, payload := .num 2, order := 1 }
    (by decide) rfl

theorem mem_getChannels_matches {st : HubState} {c : String} {q : MatchNeedle}
    (h : c ∈ getChannels st q) : match' q c = true := by
  cases q with
  | one r =>
    cases r with
    | str s =>
      by_cases hs : s = "*"
      · subst hs
        simp [match', matchRoute]
      · rw [getChannels, if_neg hs] at h
        exact (List.mem_filter.mp h).2
    | regex t =>
      simp only [getChannels] at h
      exact (List.mem_filter.mp h).2
  | many rs =>
    simp only [getChannels] at h
    exact (List.mem_filter.mp h).2

theorem mem_unionFold {st : HubState} {c : String} :
    ∀ (rl : List Route) (init : List String),
      c ∈ rl.foldl (fun coll r => setUnion coll (getChannels st (.one r))) init →
      c ∈ init ∨ ∃ r ∈ rl, c ∈ getChannels st (.one r) := by
  intro rl
  induction rl with
  | nil => intro init h; exact Or.inl h
  | cons r rest ih =>
    intro init h
    rw [List.foldl_cons] at h
    rcases ih (setUnion init (getChannels st (.one r))) h with hin | ⟨r2, hr2, hc2⟩
    · rw [setUnion] at hin
      rcases List.mem_append.mp hin with h1 | h2
      · exact Or.inl h1
      · exact Or.inr ⟨r, by simp, (List.mem_filter.mp h2).1⟩
    · exact Or.inr ⟨r2, by simp [hr2], hc2⟩

theorem resolved_matches {st : HubState} {cid : MatchNeedle} {c : String}
    (h : c ∈ resolvedQueryChannels st cid) : match' cid c = true := by
  rcases mem_unionFold (needleToList cid) [] h with hin | ⟨r, hr, hc⟩
  · simp at hin
  · have hm : matchRoute r c = true := mem_getChannels_matches hc
    cases cid with
    | one r0 =>
      have : r = r0 := by simpa [needleToList] using hr
      rw [match', ← this]
      exact hm
    | many rs =>
      rw [match']
      refine List.any_eq_true.mpr ⟨r, ?_, hm⟩
      simpa [needleToList] using hr

theorem matchingMsgs_matches {st : HubState} {cid : MatchNeedle} {m : Message}
    (hwell : logsWellChanneled st) (hm : m ∈ matchingMsgs st cid) :
    match' cid m.channel = true := by
  rw [matchingMsgs] at hm
  obtain ⟨c, hc, hmem⟩ := List.mem_flatMap.mp hm
  cases hg : mapGet st.channels c with
  | none => rw [hg] at hmem; simp at hmem
  | some log =>
    rw [hg] at hmem
    simp only [Option.getD_some] at hmem
    have hpair := mem_of_mapGet_eq_some hg
    have hchan : m.channel = c := hwell (c, log) hpair m hmem
    rw [hchan]
    exact resolved_matches hc

theorem mem_getMessages_matchingMsgs {st : HubState} {cid : MatchNeedle}
    {ord : Option SortOrder} {lim : JsNum} {m : Message}
    (hm : m ∈ getMessages st { cid := some cid, order := ord, limit := some lim }) :
    m ∈ matchingMsgs st cid := by
  have hcs : m ∈ collectSorted st (resolvedQueryChannels st cid) (ord.getD .DESC) := by
    cases lim with
    | inf =>
      rw [getMessages_inf] at hm
      exact hm
    | fin n =>
      by_cases hn : n = 0
      · subst hn
        have h0 : getMessages st { cid := some cid, order := ord, limit := some (.fin 0) } = [] := by
          simp [getMessages]
        rw [h0] at hm
        simp at hm
      · rw [getMessages_fin st cid ord n hn] at hm
        exact (List.take_sublist n _).mem hm
  exact (collectSorted_perm st cid (ord.getD .DESC)).mem_iff.mp hcs

theorem replayFold_all (chanRoute : MatchNeedle) (cb : Callback)
    (hcb : ∀ v m, (cb v m).unsub = false) :
    ∀ (msgs : List Message) (acc : HubState × Sub × List Message),
      acc.2.1.aborted = false → acc.2.1.cb = cb →
      (∀ m ∈ msgs, match' chanRoute m.channel = true) →
      (msgs.foldl (replayStep chanRoute) acc).2.2 = acc.2.2 ++ msgs := by
  intro msgs
  induction msgs with
  | nil => intro acc hab hc hmm; simp
  | cons m rest ih =>
    intro acc hab hc hmm
    have hm : match' chanRoute m.channel = true := hmm m (by simp)
    have hstep : replayStep chanRoute acc m
        = ((handleCallbackS acc.1 acc.2.1 m).1, (handleCallbackS acc.1 acc.2.1 m).2,
           acc.2.2 ++ [m]) := by simp [replayStep, hab, hm]
    rw [List.foldl_cons, hstep]
    have hu : (acc.2.1.cb m.payload m).unsub = false := by rw [hc]; exact hcb _ _
    have hsub : (handleCallbackS acc.1 acc.2.1 m).2 = acc.2.1 := by
      rw [handleCallbackS_sub, if_neg (by simp [hu])]
    have := ih ((handleCallbackS acc.1 acc.2.1 m).1, (handleCallbackS acc.1 acc.2.1 m).2,
        acc.2.2 ++ [m])
      (by rw [hsub]; exact hab) (by rw [hsub]; exact hc)
      (fun m2 hm2 => hmm m2 (by simp [hm2]))
    rw [this]
    simp

/-- C3: subscribing with backlog `n` synchronously invokes the callback, before
`sub` returns, for exactly `min n h` prior messages (`h` = number of existing
messages on the matching channels), delivered newest-first, provided the
callback does not unsubscribe (C6 covers self-unsubscription); with the
default `backlog = 0`, zero prior messages are delivered. -/
theorem c3_backlog_delivers_min_newest_first (st : HubState) (chanRoute : MatchNeedle)
    (cb : Callback) (n : Nat)
    (hcb : ∀ v m, (cb v m).unsub = false) (hwell : logsWellChanneled st) :
    (subWithTrace st chanRoute cb (.fin n)).2
        = getMessages st { cid := some chanRoute, order := some .DESC, limit := some (.fin n) }
    ∧ (subWithTrace st chanRoute cb (.fin n)).2.length
        = min n (matchingMsgs st chanRoute).length
    ∧ List.Sorted (fun a b : Message => b.order ≤ a.order)
        (subWithTrace st chanRoute cb (.fin n)).2 := by
  have htrace : (subWithTrace st chanRoute cb (.fin n)).2
      = getMessages st { cid := some chanRoute, order := some .DESC, limit := some (.fin n) } := by
    have hfold := replayFold_all chanRoute cb hcb
      (getMessages st { cid := some chanRoute, order := some .DESC, limit := some (.fin n) })
      ({ st with subs := st.subs ++ [{ route := chanRoute, cb := cb, aborted := false }] },
        { route := chanRoute, cb := cb, aborted := false }, [])
      rfl rfl
      (fun m hm => matchingMsgs_matches hwell (mem_getMessages_matchingMsgs hm))
    simpa using hfold
  refine ⟨htrace, ?_, ?_⟩
  · rw [htrace]
    by_cases hn : n = 0
    · subst hn
      simp [getMessages]
    · rw [getMessages_fin st chanRoute (some .DESC) n hn, List.length_take,
        (collectSorted_perm st chanRoute ((some SortOrder.DESC).getD .DESC)).length_eq]
  · rw [htrace]
    by_cases hn : n = 0
    · subst hn
      simp [getMessages]
    · rw [getMessages_fin st chanRoute (some .DESC) n hn]
      exact List.Pairwise.sublist (List.take_sublist n _)
        (sorted_desc_orders (collectSorted_sorted st (resolvedQueryChannels st chanRoute)
          ((some SortOrder.DESC).getD .DESC)))

/-- Channel `test` with three prior messages `'a'`, `'b'`, `'c'`. -/
def c3Hub : HubState :=
  { channels := [("test",
      [{ channel := "test", containsId := 0, payload := .str "a", order := 0 },
       { channel := "test", containsId := 1, payload := .str "b", order := 1 },
       { channel := "test", containsId := 2, payload := .str "c", order := 2 }])],
    subs := [], running := fun _ => none, errorEvents := [],
    nextOrder := 3, nextContainsId := 3 }

def c3Cb : Callback := fun _ _ => { outcome := .ret .undef, unsub := false }

/-- C3 witness: `sub('test', cb, 1)` after three prior publishes delivers
exactly `min 1 3 = 1` message, the most recent one, newest-first. -/
theorem c3_witness :
    (subWithTrace c3Hub (.one (.str "test")) c3Cb (.fin 1)).2
        = getMessages c3Hub
            { cid := some (.one (.str "test")), order := some SortOrder.DESC,
              limit := some (JsNum.fin 1) }
    ∧ (subWithTrace c3Hub (.one (.str "test")) c3Cb (.fin 1)).2.length
        = min 1 (matchingMsgs c3Hub (.one (.str "test"))).length
    ∧ List.Sorted (fun a b : Message => b.order ≤ a.order)
        (subWithTrace c3Hub (.one (.str "test")) c3Cb (.fin 1)).2 :=
  c3_backlog_delivers_min_newest_first c3Hub (.one (.str "test")) c3Cb 1
    (fun _ _ => rfl) (by unfold logsWellChanneled; decide)

example : (subWithTrace c3Hub (.one (.str "test")) c3Cb (.fin 1)).2
    = [{ channel := "test", containsId := 2, payload := .str "c", order := 2 }] := by decide
example : (subWithTrace c3Hub (.one (.str "test")) c3Cb (.fin 0)).2 = [] := by decide
